import Mathlib

/-!
Verification of the WorgenX wordlist generator core: a shallow embedding of
the mask compiler, hash dispatcher, work partitioner, worker loop, shared
file sink, progress counter and benchmark loop, together with theorems about
the properties stated in the specification.

Strings manipulated by the program are modelled as their character sequences
(`List Char`), byte alphabets as `List Nat`, and the shared output file as
the list of characters written to it so far.  The 64-bit atomic counters are
modelled as natural numbers reduced modulo `2 ^ 64` at each update.
-/

namespace WorgenX

/-- Error kinds of `src/error.rs` (`SystemError`), together with the variants
used by `src/system.rs` and `src/wordlist.rs`. -/
inductive SystemError where
  | invalidPath : String → SystemError
  | parentFolderDoesntExist : String → SystemError
  | unableToCreateFile : String → String → SystemError
  | unableToWriteToFile : String → String → SystemError
  | invalidFilename : String → SystemError
  | unsupportedHashAlgorithm : String → SystemError
  | threadError : String → SystemError
  deriving DecidableEq, Repr

instance {ε α : Type} [DecidableEq ε] [DecidableEq α] : DecidableEq (Except ε α) :=
  fun a b =>
    match a, b with
    | .ok x, .ok y =>
      if h : x = y then isTrue (by rw [h])
      else isFalse (by intro hh; cases hh; exact h rfl)
    | .error x, .error y =>
      if h : x = y then isTrue (by rw [h])
      else isFalse (by intro hh; cases hh; exact h rfl)
    | .ok _, .error _ => isFalse (by intro hh; cases hh)
    | .error _, .ok _ => isFalse (by intro hh; cases hh)

/-- Error kinds of `src/error.rs` (`ArgError`) used by the CLI layer. -/
inductive ArgError where
  | noArgument : ArgError
  | unknownArgument : String → ArgError
  | missingValue : String → ArgError
  | missingArgument : String → ArgError
  | invalidNumericalValue : String → String → ArgError
  | missingConfiguration : String → ArgError
  | bothOutputArguments : ArgError
  | invalidMask : ArgError
  deriving DecidableEq, Repr

/-- Byte values of `dict::UPPERCASE` (`src/dict.rs`). -/
def UPPERCASE : List Nat :=
  [65, 66, 67, 68, 69, 70, 71, 72, 73, 74, 75, 76, 77,
   78, 79, 80, 81, 82, 83, 84, 85, 86, 87, 88, 89, 90]

/-- Byte values of `dict::LOWERCASE` (`src/dict.rs`). -/
def LOWERCASE : List Nat :=
  [97, 98, 99, 100, 101, 102, 103, 104, 105, 106, 107, 108, 109,
   110, 111, 112, 113, 114, 115, 116, 117, 118, 119, 120, 121, 122]

/-- Byte values of `dict::NUMBERS` (`src/dict.rs`). -/
def NUMBERS : List Nat :=
  [48, 49, 50, 51, 52, 53, 54, 55, 56, 57]

/-- Byte values of `dict::SPECIAL_CHARACTERS` (`src/dict.rs`), 29 bytes. -/
def SPECIAL_CHARACTERS : List Nat :=
  [33, 34, 35, 36, 37, 38, 39, 40, 41, 42, 43, 44, 45, 46, 47,
   58, 59, 60, 61, 62, 63, 64, 91, 92, 93, 95, 123, 124, 125]

/-- The struct `WordlistValues` of `src/wordlist.rs`. -/
structure WordlistValues where
  numbers : Bool
  special_characters : Bool
  uppercase : Bool
  lowercase : Bool
  mask : String
  hash : String

/-- The struct `WordlistConfig` of `src/wordlist.rs`. -/
structure WordlistConfig where
  dict : List Nat
  mask_indexes : List Nat
  formated_mask : List Char
  hash : String

/-- Embedding of `create_wordlist_content` (`src/wordlist.rs:64`): the class
byte sets are appended in the fixed order uppercase, lowercase, numbers,
special characters. -/
def create_wordlist_content (v : WordlistValues) : List Nat :=
  (if v.uppercase then UPPERCASE else [])
    ++ (if v.lowercase then LOWERCASE else [])
    ++ (if v.numbers then NUMBERS else [])
    ++ (if v.special_characters then SPECIAL_CHARACTERS else [])

/-- Recursive embedding of the scanning loop of `format_mask_to_indexes`
(`src/wordlist.rs:97`).  `escaped` is the mutable flag of the source and
`idx` the running `idx_formated_mask` counter; the branch for an opening
backslash performs `continue`, so it leaves `idx` unchanged.  Note that the
source resets `escaped` only in the `\` and `?` branches: an ordinary
character leaves the flag as it is. -/
def format_mask_aux (escaped : Bool) (idx : Nat) : List Char → List Char × List Nat
  | [] => ([], [])
  | c :: cs =>
    if c = '\\' then
      if escaped then
        let r := format_mask_aux false (idx + 1) cs
        ('\\' :: r.1, r.2)
      else
        format_mask_aux true idx cs
    else if c = '?' then
      if escaped then
        let r := format_mask_aux false (idx + 1) cs
        ('?' :: r.1, r.2)
      else
        let r := format_mask_aux false (idx + 1) cs
        (Char.ofNat 0 :: r.1, idx :: r.2)
    else
      let r := format_mask_aux escaped (idx + 1) cs
      (c :: r.1, r.2)

/-- Embedding of `format_mask_to_indexes` (`src/wordlist.rs:97`): returns the
pair `(formated_mask, mask_indexes)`. -/
def format_mask_to_indexes (mask : String) : List Char × List Nat :=
  format_mask_aux false 0 mask.toList

/-- Embedding of `build_wordlist_config` (`src/wordlist.rs:142`). -/
def build_wordlist_config (v : WordlistValues) : WordlistConfig :=
  { dict := create_wordlist_content v
    mask_indexes := (format_mask_to_indexes v.mask).2
    formated_mask := (format_mask_to_indexes v.mask).1
    hash := v.hash }

/-- Model of a one-shot hasher from the external `digest` crates used by
`src/system.rs`.  The crates fix the output size at the type level
(`OutputSize`), which the field `run_length` reflects; `run_bytes` reflects
that digests are byte strings. -/
structure DigestImpl (outLen : Nat) where
  run : String → List Nat
  run_length : ∀ s, (run s).length = outLen
  run_bytes : ∀ s, ∀ b ∈ run s, b < 256

/-- The thirteen hashers dispatched by `manage_hash` (`src/system.rs:365`),
with their standard output sizes in bytes. -/
structure HashImpls where
  md5 : DigestImpl 16
  sha1 : DigestImpl 20
  sha224 : DigestImpl 28
  sha256 : DigestImpl 32
  sha384 : DigestImpl 48
  sha512 : DigestImpl 64
  sha3_224 : DigestImpl 28
  sha3_256 : DigestImpl 32
  sha3_384 : DigestImpl 48
  sha3_512 : DigestImpl 64
  blake2b512 : DigestImpl 64
  blake2s256 : DigestImpl 32
  whirlpool : DigestImpl 64

/-- Lowercase hexadecimal digit, as produced by `hex::encode`. -/
def hex_digit (n : Nat) : Char :=
  if n < 10 then Char.ofNat (48 + n) else Char.ofNat (87 + n)

/-- Model of `hex::encode`: two lowercase hex digits per byte, no prefix and
no separator. -/
def hex_encode (bytes : List Nat) : List Char :=
  bytes.flatMap (fun b => [hex_digit (b / 16), hex_digit (b % 16)])

/-- Embedding of `hash_with_digest` (`src/system.rs:396`): absorb the
password bytes and hex-encode the digest. -/
def hash_with_digest {n : Nat} (d : DigestImpl n) (password : String) : String :=
  String.mk (hex_encode (d.run password))

/-- Embedding of `manage_hash` (`src/system.rs:365`): dispatch on the exact,
case-sensitive algorithm name; any other name is `UnsupportedHashAlgorithm`. -/
def manage_hash (impls : HashImpls) (password hash : String) :
    Except SystemError String :=
  if hash = "md5" then .ok (hash_with_digest impls.md5 password)
  else if hash = "sha1" then .ok (hash_with_digest impls.sha1 password)
  else if hash = "sha224" then .ok (hash_with_digest impls.sha224 password)
  else if hash = "sha256" then .ok (hash_with_digest impls.sha256 password)
  else if hash = "sha384" then .ok (hash_with_digest impls.sha384 password)
  else if hash = "sha512" then .ok (hash_with_digest impls.sha512 password)
  else if hash = "sha3-224" then .ok (hash_with_digest impls.sha3_224 password)
  else if hash = "sha3-256" then .ok (hash_with_digest impls.sha3_256 password)
  else if hash = "sha3-384" then .ok (hash_with_digest impls.sha3_384 password)
  else if hash = "sha3-512" then .ok (hash_with_digest impls.sha3_512 password)
  else if hash = "blake2b-512" then .ok (hash_with_digest impls.blake2b512 password)
  else if hash = "blake2s-256" then .ok (hash_with_digest impls.blake2s256 password)
  else if hash = "whirlpool" then .ok (hash_with_digest impls.whirlpool password)
  else .error (.unsupportedHashAlgorithm hash)

/-- The thirteen supported algorithm names, in dispatch order. -/
def supported_hash_names : List String :=
  ["md5", "sha1", "sha224", "sha256", "sha384", "sha512",
   "sha3-224", "sha3-256", "sha3-384", "sha3-512",
   "blake2b-512", "blake2s-256", "whirlpool"]

/-- Standard digest size in bytes of each supported algorithm. -/
def standard_digest_bytes (name : String) : Nat :=
  if name = "md5" then 16
  else if name = "sha1" then 20
  else if name = "sha224" then 28
  else if name = "sha256" then 32
  else if name = "sha384" then 48
  else if name = "sha512" then 64
  else if name = "sha3-224" then 28
  else if name = "sha3-256" then 32
  else if name = "sha3-384" then 48
  else if name = "sha3-512" then 64
  else if name = "blake2b-512" then 64
  else if name = "blake2s-256" then 32
  else if name = "whirlpool" then 64
  else 0

/-- A character is a lowercase hexadecimal digit. -/
def is_lower_hex_char (c : Char) : Bool :=
  decide ((48 ≤ c.toNat ∧ c.toNat ≤ 57) ∨ (97 ≤ c.toNat ∧ c.toNat ≤ 102))

/-- Placeholder hasher family used to evaluate the model on concrete inputs
where the digest value itself is irrelevant. -/
def zero_digest (n : Nat) : DigestImpl n where
  run := fun _ => List.replicate n 0
  run_length := fun _ => List.length_replicate n 0
  run_bytes := fun _ b hb => by
    have : b = 0 := List.eq_of_mem_replicate hb
    omega

/-- Placeholder instance of the thirteen hashers. -/
def zero_hash_impls : HashImpls where
  md5 := zero_digest 16
  sha1 := zero_digest 20
  sha224 := zero_digest 28
  sha256 := zero_digest 32
  sha384 := zero_digest 48
  sha512 := zero_digest 64
  sha3_224 := zero_digest 28
  sha3_256 := zero_digest 32
  sha3_384 := zero_digest 48
  sha3_512 := zero_digest 64
  blake2b512 := zero_digest 64
  blake2s256 := zero_digest 32
  whirlpool := zero_digest 64

/-- The constant `BUFFER_SIZE` of `src/wordlist.rs:23`. -/
def BUFFER_SIZE : Nat := 100000

/-- Size of the `u64` value space; the atomic counters wrap modulo this. -/
def U64_SIZE : Nat := 18446744073709551616

/-- One step of the big-endian odometer carry loop, on the reversed digit
vector (the source scans `(0..temp.len()).rev()`, i.e. rightmost digit
first): the first digit below `dict_size - 1` is incremented and the scan
stops; saturated digits are reset to `0` and the carry moves left.  This is
the inline loop of `run_wordlist_generation` (`src/wordlist.rs:267`) and of
`generate_wordlist_part` (`src/wordlist.rs:346`). -/
def advance_rev (dict_size : Nat) : List Nat → List Nat
  | [] => []
  | d :: rest =>
    if d < dict_size - 1 then (d + 1) :: rest else 0 :: advance_rev dict_size rest

/-- Big-endian odometer increment on the index vector. -/
def advance_indexes (dict_size : Nat) (v : List Nat) : List Nat :=
  (advance_rev dict_size v.reverse).reverse

/-- Embedding of the line-building scan of `generate_wordlist_part`
(`src/wordlist.rs:332`): for each template position the first `idx` with
`mask_indexes[idx] = i` selects the alphabet byte `dict[dict_indexes[idx]]`,
otherwise the literal `formated_mask[i]` is copied.  Out-of-bounds reads
(which would panic in the source) are modelled by defaults. -/
def build_line (formated_mask : List Char) (mask_indexes : List Nat)
    (dict : List Nat) (dict_indexes : List Nat) : List Char :=
  (List.range formated_mask.length).map (fun i =>
    match List.findIdx? (fun m => m = i) mask_indexes with
    | some idx => Char.ofNat (dict.getD (dict_indexes.getD idx 0) 0)
    | none => formated_mask.getD i (Char.ofNat 0))

/-- Embedding of `save_passwd_to_file` (`src/system.rs:278`): under the file
mutex, `format!("{passwords}\n")` is appended to the file, i.e. the passed
string followed by one newline.  The file is modelled by its content. -/
def save_passwd_to_file (file : List Char) (passwords : List Char) : List Char :=
  file ++ passwords ++ ['\n']

/-- The `process_line` closure of `generate_wordlist_part`
(`src/wordlist.rs:318`): identity for an empty hash name, otherwise
`manage_hash`. -/
def process_line (impls : HashImpls) (hash : String) (line : List Char) :
    Except SystemError (List Char) :=
  if hash = "" then .ok line
  else
    match manage_hash impls (String.mk line) hash with
    | .ok hashed_passwd => .ok hashed_passwd.toList
    | .error e => .error e

/-- The main loop of `generate_wordlist_part` (`src/wordlist.rs:329`),
with the remaining iteration count as fuel.  Per iteration: build the line
from the current index vector, advance the index vector, process (possibly
hash) the line into the buffer, increment the global counter by one modulo
`2 ^ 64`, and flush the buffer through `save_passwd_to_file` when it reaches
`BUFFER_SIZE`; after the loop a non-empty remainder is flushed.  Returns the
file content and the counter value. -/
def generate_wordlist_part_loop (impls : HashImpls) (hash : String)
    (formated_mask : List Char) (mask_indexes : List Nat) (dict : List Nat) :
    Nat → List Nat → List (List Char) → List Char → Nat →
    Except SystemError (List Char × Nat)
  | 0, _, buffer, file, counter =>
    .ok (if buffer = [] then file
         else save_passwd_to_file file (List.intercalate ['\n'] buffer), counter)
  | n + 1, dict_indexes, buffer, file, counter =>
    let line := build_line formated_mask mask_indexes dict dict_indexes
    let dict_indexes2 := advance_indexes dict.length dict_indexes
    match process_line impls hash line with
    | .error e => .error e
    | .ok s =>
      let buffer2 := buffer ++ [s]
      let counter2 := (counter + 1) % U64_SIZE
      if buffer2.length = BUFFER_SIZE then
        generate_wordlist_part_loop impls hash formated_mask mask_indexes dict
          n dict_indexes2 []
          (save_passwd_to_file file (List.intercalate ['\n'] buffer2)) counter2
      else
        generate_wordlist_part_loop impls hash formated_mask mask_indexes dict
          n dict_indexes2 buffer2 file counter2

/-- Embedding of `generate_wordlist_part` (`src/wordlist.rs:305`): a worker
starts with an empty buffer; the shared file and the global counter are
threaded explicitly. -/
def generate_wordlist_part (impls : HashImpls) (nb_of_passwords : Nat)
    (dict_indexes : List Nat) (formated_mask : List Char)
    (mask_indexes : List Nat) (dict : List Nat) (hash : String)
    (file : List Char) (counter : Nat) :
    Except SystemError (List Char × Nat) :=
  generate_wordlist_part_loop impls hash formated_mask mask_indexes dict
    nb_of_passwords dict_indexes [] file counter

/-- Per-worker record count of `run_wordlist_generation`
(`src/wordlist.rs:238`): `total / N` for every worker, plus `total % N` on
the last one. -/
def thread_count (total N i : Nat) : Nat :=
  if i = N - 1 then total / N + total % N else total / N

/-- Number of records assigned to workers before worker `i` (the enumeration
offset at which worker `i` starts). -/
def thread_offset (total N : Nat) : Nat → Nat
  | 0 => 0
  | i + 1 => thread_offset total N i + thread_count total N i

/-- The spawning loop of `run_wordlist_generation` (`src/wordlist.rs:242`):
worker `i` receives the current running index vector `temp` and its count;
`temp` is then advanced `count` times by the odometer increment before the
next worker is spawned. -/
def build_parts (dict_size total N : Nat) :
    Nat → Nat → List Nat → List (List Nat × Nat)
  | 0, _, _ => []
  | fuel + 1, i, temp =>
    let cnt := thread_count total N i
    (temp, cnt) ::
      build_parts dict_size total N fuel (i + 1) ((advance_indexes dict_size)^[cnt] temp)

/-- The work partition computed by `run_wordlist_generation`
(`src/wordlist.rs:214`): the `(start_index_vector, count)` pair of each of
the `N` workers, starting from the all-zeros vector of length `k`
(`vec![0; mask_indexes.len()]`). -/
def run_wordlist_partition (dict_size k total N : Nat) : List (List Nat × Nat) :=
  build_parts dict_size total N N 0 (List.replicate k 0)

/-- Sequential composition of the workers of a partition over the shared
file and the global counter. -/
def wordlist_workers_fold (impls : HashImpls) (formated_mask : List Char)
    (mask_indexes : List Nat) (dict : List Nat) (hash : String) :
    List (List Nat × Nat) → List Char → Nat →
    Except SystemError (List Char × Nat)
  | [], file, c => .ok (file, c)
  | part :: rest, file, c =>
    match generate_wordlist_part impls part.2 part.1 formated_mask
        mask_indexes dict hash file c with
    | .error e => .error e
    | .ok (file2, c2) =>
      wordlist_workers_fold impls formated_mask mask_indexes dict hash
        rest file2 c2

/-- Sequential model of `run_wordlist_generation` (`src/wordlist.rs:214`)
for the shared file and the global counter: every worker of the partition
runs `generate_wordlist_part` on the shared state.  Counter increments are
atomic and commute, so the final counter value is that of this
sequentialisation. -/
def run_wordlist_generation (impls : HashImpls) (formated_mask : List Char)
    (mask_indexes : List Nat) (dict : List Nat) (hash : String)
    (total N : Nat) (counter : Nat) : Except SystemError (List Char × Nat) :=
  wordlist_workers_fold impls formated_mask mask_indexes dict hash
    (run_wordlist_partition dict.length mask_indexes.length total N)
    [] counter

/-- Embedding of `wordlist_generation_scheduler` (`src/wordlist.rs:167`) as
far as the counter and the file are concerned: it runs
`run_wordlist_generation` and performs no store to `GLOBAL_COUNTER` itself
(the static is initialised to zero once at process start and never reset). -/
def wordlist_generation_scheduler (impls : HashImpls)
    (formated_mask : List Char) (mask_indexes : List Nat) (dict : List Nat)
    (hash : String) (nb_of_passwords nb_of_threads : Nat) (counter : Nat) :
    Except SystemError (List Char × Nat) :=
  run_wordlist_generation impls formated_mask mask_indexes dict hash
    nb_of_passwords nb_of_threads counter

/-- The mask validation of the `-m` branch of `allocate_wordlist_config_cli`
(`src/mode/cli.rs:475`): the argument is rejected as `InvalidMask` exactly
when it does not contain the byte `?`; the mask string is modelled by its
character list. -/
def cli_mask_check (mask : List Char) : Except ArgError (List Char) :=
  if mask.contains '?' then .ok mask else .error .invalidMask

/-- A mask consisting only of the escaped sequences `\\` and `\?`. -/
def only_escaped : List Char → Bool
  | [] => true
  | _ :: [] => false
  | c :: d :: cs => (c = '\\' && (d = '\\' || d = '?')) && only_escaped cs

/-- Embedding of `run_stress_test` (`src/benchmark.rs:134`) with fuel: at
iteration `i` the worker loads the stop flag once; if it is cleared, the
worker adds its local count to the shared counter (a single locked `u64`
addition) and returns it; otherwise it generates one random password
(abstracted away, it has no effect on the counts) and increments its local
count. -/
def run_stress_test (stop_signal : Nat → Bool) :
    Nat → Nat → Nat → Nat → Option Nat
  | 0, _, _, _ => none
  | fuel + 1, i, counter, nb_of_passwd =>
    if stop_signal i = false then some ((counter + nb_of_passwd) % U64_SIZE)
    else run_stress_test stop_signal fuel (i + 1) counter (nb_of_passwd + 1)

/-- Sequential composition of the benchmark workers over the shared
counter. -/
def benchmark_workers_fold (fuel : Nat) :
    List (Nat → Bool) → Nat → Option Nat
  | [], c => some c
  | stop :: rest, c =>
    match run_stress_test stop fuel 0 c 0 with
    | none => none
    | some c2 => benchmark_workers_fold fuel rest c2

/-- Model of `load_cpu_benchmark` (`src/benchmark.rs:41`) for the shared
counter: each spawned worker contributes its locally accumulated count to
the shared counter exactly once at termination; the additions commute, so
the joined result is the sequential fold.  The returned value is the final
shared counter. -/
def load_cpu_benchmark (stop_signals : List (Nat → Bool)) (fuel : Nat) :
    Option Nat :=
  benchmark_workers_fold fuel stop_signals 0

/-- Modelled from the spec (§3 Mask Template, amended): template cells of
the mask compiler, written as a state machine on the escape flag.  `none`
is a SLOT cell, `some c` a LITERAL cell.  An unescaped `\` sets the flag
and emits nothing; `\` or `?` seen with the flag set emit the literal and
clear it; an unescaped `?` emits a SLOT; any other character emits its
literal and leaves the flag unchanged. -/
def mask_cells_spec (escaped : Bool) : List Char → List (Option Char)
  | [] => []
  | c :: cs =>
    if c = '\\' then
      if escaped then some '\\' :: mask_cells_spec false cs
      else mask_cells_spec true cs
    else if c = '?' then
      if escaped then some '?' :: mask_cells_spec false cs
      else none :: mask_cells_spec false cs
    else
      some c :: mask_cells_spec escaped cs

/-- Positions of the SLOT cells of a cell list, counting from `i`. -/
def slot_positions : List (Option Char) → Nat → List Nat
  | [], _ => []
  | some _ :: cells, i => slot_positions cells (i + 1)
  | none :: cells, i => i :: slot_positions cells (i + 1)

/-- Template characters of a cell list: a SLOT is the NUL placeholder. -/
def cell_chars (cells : List (Option Char)) : List Char :=
  cells.map (fun cell => cell.getD (Char.ofNat 0))

/-- State of the escape flag after scanning a character list, following the
flag discipline of `format_mask_aux`. -/
def mask_final_escaped (escaped : Bool) : List Char → Bool
  | [] => escaped
  | c :: cs =>
    if c = '\\' then
      if escaped then mask_final_escaped false cs
      else mask_final_escaped true cs
    else if c = '?' then mask_final_escaped false cs
    else mask_final_escaped escaped cs

/-- Spec-side dispatch table naming the digest a supported algorithm name
selects; used to state the success cases of `manage_hash`. -/
def hash_digest_of (impls : HashImpls) (name password : String) : String :=
  if name = "md5" then hash_with_digest impls.md5 password
  else if name = "sha1" then hash_with_digest impls.sha1 password
  else if name = "sha224" then hash_with_digest impls.sha224 password
  else if name = "sha256" then hash_with_digest impls.sha256 password
  else if name = "sha384" then hash_with_digest impls.sha384 password
  else if name = "sha512" then hash_with_digest impls.sha512 password
  else if name = "sha3-224" then hash_with_digest impls.sha3_224 password
  else if name = "sha3-256" then hash_with_digest impls.sha3_256 password
  else if name = "sha3-384" then hash_with_digest impls.sha3_384 password
  else if name = "sha3-512" then hash_with_digest impls.sha3_512 password
  else if name = "blake2b-512" then hash_with_digest impls.blake2b512 password
  else if name = "blake2s-256" then hash_with_digest impls.blake2s256 password
  else if name = "whirlpool" then hash_with_digest impls.whirlpool password
  else ""

theorem format_mask_aux_cells (cs : List Char) :
    ∀ escaped idx,
      format_mask_aux escaped idx cs =
        (cell_chars (mask_cells_spec escaped cs),
         slot_positions (mask_cells_spec escaped cs) idx) := by
  induction cs with
  | nil => intro escaped idx; rfl
  | cons c cs ih =>
    intro escaped idx
    by_cases hb : c = '\\'
    · subst hb
      cases escaped with
      | false =>
        simp only [format_mask_aux, mask_cells_spec, if_true, if_pos rfl]
        exact ih true idx
      | true =>
        simp only [format_mask_aux, mask_cells_spec, if_pos rfl]
        simp [ih false (idx + 1), cell_chars, slot_positions]
    · by_cases hq : c = '?'
      · subst hq
        cases escaped with
        | false =>
          simp only [format_mask_aux, mask_cells_spec, if_neg hb, if_pos rfl]
          simp [ih false (idx + 1), cell_chars, slot_positions]
        | true =>
          simp only [format_mask_aux, mask_cells_spec, if_neg hb, if_pos rfl]
          simp [ih false (idx + 1), cell_chars, slot_positions]
      · simp only [format_mask_aux, mask_cells_spec, if_neg hb, if_neg hq]
        simp [ih escaped (idx + 1), cell_chars, slot_positions]

theorem slot_positions_lower_bound (cells : List (Option Char)) :
    ∀ i j, j ∈ slot_positions cells i → i ≤ j := by
  induction cells with
  | nil => intro i j h; simp [slot_positions] at h
  | cons cell cells ih =>
    intro i j h
    cases cell with
    | none =>
      simp only [slot_positions, List.mem_cons] at h
      rcases h with rfl | h
      · exact le_refl j
      · exact le_trans (Nat.le_succ i) (ih (i + 1) j h)
    | some c =>
      simp only [slot_positions] at h
      exact le_trans (Nat.le_succ i) (ih (i + 1) j h)

theorem slot_positions_sorted (cells : List (Option Char)) :
    ∀ i, List.Pairwise (· < ·) (slot_positions cells i) := by
  induction cells with
  | nil => intro i; simp [slot_positions]
  | cons cell cells ih =>
    intro i
    cases cell with
    | none =>
      simp only [slot_positions]
      refine List.Pairwise.cons ?_ (ih (i + 1))
      intro j hj
      exact lt_of_lt_of_le (Nat.lt_succ_self i) (slot_positions_lower_bound cells (i + 1) j hj)
    | some c =>
      simpa [slot_positions] using ih (i + 1)

theorem slot_positions_target (cells : List (Option Char)) :
    ∀ i j, j ∈ slot_positions cells i →
      j - i < cells.length ∧ cells[j - i]? = some none := by
  induction cells with
  | nil => intro i j h; simp [slot_positions] at h
  | cons cell cells ih =>
    intro i j h
    cases cell with
    | none =>
      simp only [slot_positions, List.mem_cons] at h
      rcases h with rfl | h
      · simp
      · have hle : i + 1 ≤ j := slot_positions_lower_bound cells (i + 1) j h
        have h2 := ih (i + 1) j h
        have hji : j - i = (j - (i + 1)) + 1 := by omega
        constructor
        · simp only [List.length_cons]; omega
        · rw [hji]; simpa using h2.2
    | some c =>
      simp only [slot_positions] at h
      have hle : i + 1 ≤ j := slot_positions_lower_bound cells (i + 1) j h
      have h2 := ih (i + 1) j h
      have hji : j - i = (j - (i + 1)) + 1 := by omega
      constructor
      · simp only [List.length_cons]; omega
      · rw [hji]; simpa using h2.2

theorem slot_positions_nil_of_no_none (cells : List (Option Char))
    (h : ∀ cell ∈ cells, cell ≠ none) : ∀ i, slot_positions cells i = [] := by
  induction cells with
  | nil => intro i; rfl
  | cons cell cells ih =>
    intro i
    cases cell with
    | none => exact absurd rfl (h none (by simp))
    | some c =>
      simp only [slot_positions]
      exact ih (fun x hx => h x (List.mem_cons_of_mem _ hx)) (i + 1)

theorem only_escaped_no_slot_cells :
    ∀ cs : List Char, only_escaped cs = true →
      ∀ cell ∈ mask_cells_spec false cs, cell ≠ none := by
  intro cs
  induction cs using only_escaped.induct with
  | case1 =>
    intro _ cell hcell
    simp [mask_cells_spec] at hcell
  | case2 c =>
    intro h
    simp [only_escaped] at h
  | case3 c d cs ih =>
    intro h cell hcell
    simp only [only_escaped, Bool.and_eq_true, Bool.or_eq_true, decide_eq_true_eq] at h
    obtain ⟨⟨hc, hd⟩, hrec⟩ := h
    subst hc
    rcases hd with hd | hd
    · subst hd
      simp only [mask_cells_spec] at hcell
      simp at hcell
      rcases hcell with hcell | hcell
      · subst hcell; simp
      · exact ih hrec cell hcell
    · subst hd
      simp only [mask_cells_spec] at hcell
      simp at hcell
      rcases hcell with hcell | hcell
      · subst hcell; simp
      · exact ih hrec cell hcell

theorem format_mask_aux_trailing_backslash (cs : List Char) :
    ∀ escaped idx, mask_final_escaped escaped cs = false →
      format_mask_aux escaped idx (cs ++ ['\\']) = format_mask_aux escaped idx cs := by
  induction cs with
  | nil =>
    intro escaped idx h
    simp only [mask_final_escaped] at h
    subst h
    rfl
  | cons c cs ih =>
    intro escaped idx h
    by_cases hb : c = '\\'
    · subst hb
      cases escaped with
      | false =>
        simp only [mask_final_escaped] at h
        simp at h
        simp [List.cons_append, format_mask_aux, ih true idx h]
      | true =>
        simp only [mask_final_escaped] at h
        simp at h
        simp [List.cons_append, format_mask_aux, ih false (idx + 1) h]
    · by_cases hq : c = '?'
      · subst hq
        simp only [mask_final_escaped] at h
        simp [hb] at h
        cases escaped with
        | false =>
          simp [List.cons_append, format_mask_aux, hb, ih false (idx + 1) h]
        | true =>
          simp [List.cons_append, format_mask_aux, hb, ih false (idx + 1) h]
      · simp only [mask_final_escaped] at h
        simp [hb, hq] at h
        simp [List.cons_append, format_mask_aux, hb, hq, ih escaped (idx + 1) h]

theorem getD_range_map (l : List Char) (d : Char) :
    (List.range l.length).map (fun i => l.getD i d) = l := by
  apply List.ext_getElem
  · simp
  · intro i h1 h2
    simp only [List.getElem_map, List.getElem_range]
    simp only [List.length_map, List.length_range] at h1
    rw [List.getD_eq_getElem l d h1]

theorem build_line_no_slots (fm : List Char) (dict : List Nat) (di : List Nat) :
    build_line fm [] dict di = fm := by
  unfold build_line
  simp only [List.findIdx?_nil]
  exact getD_range_map fm (Char.ofNat 0)

theorem intercalate_singleton (sep x : List Char) : List.intercalate sep [x] = x := by
  simp [List.intercalate]

/-- C2, counterexample: in the mask `\a?` the backslash sets the escape flag,
the ordinary byte `a` does not clear it, and the `?` is therefore consumed as
an escaped literal `?` — the compiler returns no slot index at all, whereas
the claim requires this `?` to compile to a SLOT. -/
theorem mask_sticky_escape_cex :
    format_mask_to_indexes "\\a?" = (['a', '?'], ([] : List Nat)) := by decide

/-- C2 (amended): the compiler maps `\\` to LITERAL `\` and `\?` to
LITERAL `?`; a `?` compiles to a SLOT exactly when the escape flag is clear,
where the flag is set by an unescaped `\`, cleared by the next `\` or `?`,
and left unchanged by any other byte (so it persists across ordinary bytes);
any other byte `b` maps to LITERAL(b); `slot_indices` lists the SLOT
positions in order.  In particular in `\a?` the `?` compiles to LITERAL `?`,
not to a SLOT. -/
theorem mask_compiler_cells_spec (mask : String) :
    format_mask_to_indexes mask =
      (cell_chars (mask_cells_spec false mask.toList),
       slot_positions (mask_cells_spec false mask.toList) 0) :=
  format_mask_aux_cells mask.toList false 0

/-- C8, counterexample: the mask consisting of a single unescaped trailing
backslash compiles to the empty template — the dangling `\` is dropped, it
does not appear as a LITERAL `\` cell at the end of the template as the
claim states. -/
theorem trailing_backslash_cex :
    format_mask_to_indexes "\\" = (([] : List Char), ([] : List Nat)) ∧
    (format_mask_to_indexes "\\").1.getLast? ≠ some '\\' := by
  constructor
  · decide
  · decide

/-- C8 (amended): a dangling trailing unescaped `\` is consumed by the
escape flag and emits nothing: compiling a mask that ends in a single
unescaped backslash yields exactly the compilation of the mask without that
backslash; no LITERAL `\` cell is appended. -/
theorem trailing_backslash_dropped (mask : List Char)
    (h : mask_final_escaped false mask = false) :
    format_mask_to_indexes (String.mk (mask ++ ['\\'])) =
      format_mask_to_indexes (String.mk mask) :=
  format_mask_aux_trailing_backslash mask false 0 h

/-- Witness for `trailing_backslash_dropped` at the mask `a\`. -/
theorem trailing_backslash_dropped_witness :
    mask_final_escaped false ['a'] = false ∧
    format_mask_to_indexes (String.mk (['a'] ++ ['\\'])) =
      format_mask_to_indexes (String.mk ['a']) :=
  ⟨by decide, trailing_backslash_dropped ['a'] (by decide)⟩

/-- C10: the mask compiler is total — for every input string it returns a
`(template, slot_indices)` pair — and the returned slot indices are strictly
increasing, in bounds, and each points at a placeholder (NUL) cell of the
template. -/
theorem mask_compiler_total_invariants (mask : String) :
    List.Pairwise (· < ·) (format_mask_to_indexes mask).2 ∧
    ∀ j ∈ (format_mask_to_indexes mask).2,
      j < (format_mask_to_indexes mask).1.length ∧
      (format_mask_to_indexes mask).1[j]? = some (Char.ofNat 0) := by
  have hfmt : format_mask_to_indexes mask =
      (cell_chars (mask_cells_spec false mask.toList),
       slot_positions (mask_cells_spec false mask.toList) 0) :=
    format_mask_aux_cells mask.toList false 0
  rw [hfmt]
  constructor
  · exact slot_positions_sorted (mask_cells_spec false mask.toList) 0
  · intro j hj
    have h := slot_positions_target (mask_cells_spec false mask.toList) 0 j hj
    rw [Nat.sub_zero] at h
    constructor
    · simpa [cell_chars] using h.1
    · simp only [cell_chars, List.getElem?_map, h.2, Option.map_some]
      rfl

/-- Witness for `mask_compiler_total_invariants` at the mask `?a?`. -/
theorem mask_compiler_total_invariants_witness :
    List.Pairwise (· < ·) (format_mask_to_indexes "?a?").2 ∧
    2 ∈ (format_mask_to_indexes "?a?").2 ∧
    2 < (format_mask_to_indexes "?a?").1.length ∧
    (format_mask_to_indexes "?a?").1[2]? = some (Char.ofNat 0) :=
  ⟨(mask_compiler_total_invariants "?a?").1, by decide,
   ((mask_compiler_total_invariants "?a?").2 2 (by decide)).1,
   ((mask_compiler_total_invariants "?a?").2 2 (by decide)).2⟩

/-- C7, counterexample: the mask `\?` consists only of escaped sequences and
compiles to zero slots, but the CLI mask check only tests for the presence
of the byte `?`, which `\?` contains — the configuration is accepted, not
rejected as `InvalidMask`, and one record (the literal `?`) is generated. -/
theorem escaped_only_mask_cex :
    only_escaped "\\?".toList = true ∧
    cli_mask_check "\\?".toList = .ok "\\?".toList ∧
    format_mask_to_indexes "\\?" = (['?'], ([] : List Nat)) ∧
    generate_wordlist_part zero_hash_impls 1 [] ['?'] [] LOWERCASE "" [] 0 =
      .ok (['?', '\n'], 1) := by
  refine ⟨by decide, by decide, by decide, ?_⟩
  decide

/-- C7 (amended): a mask consisting only of the escaped sequences `\\` and
`\?` always compiles to a template with zero slots, but it is rejected as
`InvalidMask` exactly when it contains no `?` byte (only `\\` sequences);
when at least one `\?` occurs, the mask passes the CLI check and the worker
generates one record — the rendered template followed by a newline. -/
theorem escaped_only_mask_rejection (mask : List Char)
    (h : only_escaped mask = true) :
    (format_mask_to_indexes (String.mk mask)).2 = [] ∧
    (cli_mask_check mask = .error .invalidMask ↔ mask.contains '?' = false) ∧
    (mask.contains '?' = true →
      cli_mask_check mask = .ok mask ∧
      ∀ impls dict file c,
        generate_wordlist_part impls 1 []
            (format_mask_to_indexes (String.mk mask)).1 [] dict "" file c =
          .ok (file ++ (format_mask_to_indexes (String.mk mask)).1 ++ ['\n'],
               (c + 1) % U64_SIZE)) := by
  have hfmt : format_mask_to_indexes (String.mk mask) =
      (cell_chars (mask_cells_spec false mask),
       slot_positions (mask_cells_spec false mask) 0) :=
    format_mask_aux_cells mask false 0
  refine ⟨?_, ?_, ?_⟩
  · rw [hfmt]
    exact slot_positions_nil_of_no_none _ (only_escaped_no_slot_cells mask h) 0
  · cases hc : mask.contains '?' <;> (unfold cli_mask_check; rw [hc]; simp)
  · intro hc
    refine ⟨by unfold cli_mask_check; rw [hc]; simp, ?_⟩
    intro impls dict file c
    simp [generate_wordlist_part, generate_wordlist_part_loop, process_line,
      build_line_no_slots, BUFFER_SIZE, intercalate_singleton,
      save_passwd_to_file]

/-- Witness for `escaped_only_mask_rejection` at the mask `\\`. -/
theorem escaped_only_mask_rejection_witness :
    only_escaped ['\\', '\\'] = true ∧
    ((format_mask_to_indexes (String.mk ['\\', '\\'])).2 = [] ∧
     (cli_mask_check ['\\', '\\'] = .error .invalidMask ↔
        List.contains ['\\', '\\'] '?' = false) ∧
     (List.contains ['\\', '\\'] '?' = true →
       cli_mask_check ['\\', '\\'] = .ok ['\\', '\\'] ∧
       ∀ impls dict file c,
         generate_wordlist_part impls 1 []
             (format_mask_to_indexes (String.mk ['\\', '\\'])).1 [] dict "" file c =
           .ok (file ++ (format_mask_to_indexes (String.mk ['\\', '\\'])).1 ++ ['\n'],
                (c + 1) % U64_SIZE))) :=
  ⟨by decide, escaped_only_mask_rejection ['\\', '\\'] (by decide)⟩

theorem build_parts_map (d total N : Nat) (z : List Nat) :
    ∀ fuel i,
      build_parts d total N fuel i ((advance_indexes d)^[thread_offset total N i] z) =
        (List.range' i fuel).map
          (fun j => ((advance_indexes d)^[thread_offset total N j] z,
                     thread_count total N j)) := by
  intro fuel
  induction fuel with
  | zero => intro i; rfl
  | succ fuel ih =>
    intro i
    have hcomp : (advance_indexes d)^[thread_count total N i]
        ((advance_indexes d)^[thread_offset total N i] z) =
        (advance_indexes d)^[thread_offset total N (i + 1)] z := by
      rw [← Function.iterate_add_apply]
      have : thread_count total N i + thread_offset total N i =
          thread_offset total N (i + 1) := by
        simp [thread_offset, Nat.add_comm]
      rw [this]
    simp only [build_parts]
    rw [hcomp, ih (i + 1)]
    rfl

theorem thread_offset_mono (total N : Nat) :
    ∀ i j, i ≤ j → thread_offset total N i ≤ thread_offset total N j := by
  intro i j hij
  induction j with
  | zero =>
    have : i = 0 := Nat.le_zero.mp hij
    subst this
    exact le_refl _
  | succ j ih =>
    rcases Nat.eq_or_lt_of_le hij with h | h
    · subst h; exact le_refl _
    · have hj : i ≤ j := Nat.lt_succ_iff.mp h
      exact le_trans (ih hj) (Nat.le_add_right _ _)

theorem thread_offset_closed (total N : Nat) :
    ∀ i, i ≤ N - 1 → thread_offset total N i = i * (total / N) := by
  intro i
  induction i with
  | zero => intro _; simp [thread_offset]
  | succ i ih =>
    intro h
    have hi : i ≤ N - 1 := le_trans (Nat.le_succ i) h
    have hne : i ≠ N - 1 := by omega
    simp only [thread_offset, ih hi, thread_count, if_neg hne]
    ring

theorem thread_offset_total (total N : Nat) (hN : 1 ≤ N) :
    thread_offset total N N = total := by
  have hN1 : (N - 1) + 1 = N := by omega
  have h2 : thread_offset total N ((N - 1) + 1) = total := by
    have h1 : thread_offset total N ((N - 1) + 1) =
        thread_offset total N (N - 1) + thread_count total N (N - 1) := rfl
    rw [h1, thread_offset_closed total N (N - 1) (le_refl _),
      thread_count, if_pos rfl]
    have hdm := Nat.div_add_mod total N
    have h3 : (N - 1) * (total / N) + total / N = N * (total / N) := by
      obtain ⟨n, rfl⟩ : ∃ n, N = n + 1 := ⟨N - 1, by omega⟩
      simp [Nat.add_mul]
    omega
  exact hN1 ▸ h2

theorem partition_coverage (total N : Nat) (hN : 1 ≤ N) :
    ∀ m, m < total ↔ ∃ i, i < N ∧ thread_offset total N i ≤ m ∧
      m < thread_offset total N i + thread_count total N i := by
  have hstep : ∀ i, thread_offset total N i + thread_count total N i =
      thread_offset total N (i + 1) := fun i => rfl
  have hlast : thread_offset total N (N - 1) + thread_count total N (N - 1) =
      total := by
    have hN1 : (N - 1) + 1 = N := by omega
    rw [hstep, hN1, thread_offset_total total N hN]
  intro m
  constructor
  · intro hm
    by_cases hq : total / N = 0
    · refine ⟨N - 1, by omega, ?_, ?_⟩
      · rw [thread_offset_closed total N (N - 1) (le_refl _), hq, Nat.mul_zero]
        exact Nat.zero_le m
      · rw [hlast]; exact hm
    · have hq0 : 0 < total / N := Nat.pos_of_ne_zero hq
      by_cases hi : m / (total / N) < N - 1
      · refine ⟨m / (total / N), by omega, ?_, ?_⟩
        · rw [thread_offset_closed total N _ (le_of_lt hi)]
          exact Nat.div_mul_le_self m (total / N)
        · rw [thread_offset_closed total N _ (le_of_lt hi), thread_count,
            if_neg (Nat.ne_of_lt hi)]
          have h1 := Nat.div_add_mod m (total / N)
          have h2 := Nat.mod_lt m hq0
          calc m = total / N * (m / (total / N)) + m % (total / N) := h1.symm
            _ < total / N * (m / (total / N)) + total / N := by omega
            _ = m / (total / N) * (total / N) + total / N := by
                rw [Nat.mul_comm]
      · have hi2 : N - 1 ≤ m / (total / N) := Nat.le_of_not_lt hi
        refine ⟨N - 1, by omega, ?_, ?_⟩
        · rw [thread_offset_closed total N (N - 1) (le_refl _)]
          calc (N - 1) * (total / N) ≤ m / (total / N) * (total / N) :=
                Nat.mul_le_mul_right _ hi2
            _ ≤ m := Nat.div_mul_le_self m (total / N)
        · rw [hlast]; exact hm
  · rintro ⟨i, hiN, _h1, h2⟩
    have h4 : thread_offset total N (i + 1) ≤ thread_offset total N N :=
      thread_offset_mono total N (i + 1) N hiN
    rw [thread_offset_total total N hN] at h4
    rw [hstep] at h2
    omega

/-- C1: the work partitioner assigns `total / N` records to every worker
`i < N - 1` and `total / N + total % N` to the last one; the `i`-th worker's
start index vector is the odometer value obtained by applying the big-endian
increment `thread_offset total N i = sum of the counts of workers j < i`
times to the all-zeros vector; the assigned ranges are contiguous
(`offset (i+1) = offset i + count i`), pairwise disjoint, and cover
`[0, total)`. -/
theorem wordlist_partition_spec (d k N total : Nat) (hN : 1 ≤ N)
    (htotal : total = d ^ k) :
    run_wordlist_partition d k total N =
      (List.range N).map
        (fun i => ((advance_indexes d)^[thread_offset total N i]
                     (List.replicate k 0),
                   thread_count total N i)) ∧
    (∀ i, i + 1 < N → thread_count total N i = total / N) ∧
    thread_count total N (N - 1) = total / N + total % N ∧
    thread_offset total N 0 = 0 ∧
    (∀ i, thread_offset total N (i + 1) =
       thread_offset total N i + thread_count total N i) ∧
    thread_offset total N N = total ∧
    (∀ m, m < total ↔ ∃ i, i < N ∧ thread_offset total N i ≤ m ∧
       m < thread_offset total N i + thread_count total N i) ∧
    (∀ i j, i < j →
       thread_offset total N i + thread_count total N i ≤
         thread_offset total N j) := by
  refine ⟨?_, ?_, ?_, rfl, fun i => rfl, thread_offset_total total N hN,
    partition_coverage total N hN, ?_⟩
  · rw [List.range_eq_range']
    exact build_parts_map d total N (List.replicate k 0) N 0
  · intro i h
    have hne : i ≠ N - 1 := by omega
    simp [thread_count, if_neg hne]
  · simp [thread_count]
  · intro i j hij
    have : thread_offset total N (i + 1) ≤ thread_offset total N j :=
      thread_offset_mono total N (i + 1) j hij
    exact this

/-- Witness for `wordlist_partition_spec` with a 2-byte alphabet, 2 slots
and 3 workers. -/
theorem wordlist_partition_spec_witness :
    1 ≤ 3 ∧ 4 = 2 ^ 2 ∧
    run_wordlist_partition 2 2 4 3 =
      (List.range 3).map
        (fun i => ((advance_indexes 2)^[thread_offset 4 3 i]
                     (List.replicate 2 0),
                   thread_count 4 3 i)) :=
  ⟨by decide, by decide, (wordlist_partition_spec 2 2 3 4 (by decide) (by decide)).1⟩

theorem intercalate_append_newline (bs : List (List Char)) (h : bs ≠ []) :
    List.intercalate ['\n'] bs ++ ['\n'] =
      List.flatten (bs.map (fun r => r ++ ['\n'])) := by
  induction bs with
  | nil => exact absurd rfl h
  | cons b bs ih =>
    cases bs with
    | nil => simp [List.intercalate]
    | cons b2 bs2 =>
      have h2 : b2 :: bs2 ≠ [] := by simp
      have hcc : List.intercalate ['\n'] (b :: b2 :: bs2) =
          b ++ ['\n'] ++ List.intercalate ['\n'] (b2 :: bs2) := by
        simp [List.intercalate, List.intersperse]
      rw [hcc, List.map_cons, List.flatten_cons, ← ih h2]
      simp [List.append_assoc]

theorem save_flush_flatten (file : List Char) (buffer : List (List Char))
    (h : buffer ≠ []) :
    save_passwd_to_file file (List.intercalate ['\n'] buffer) =
      file ++ (buffer.map (fun r => r ++ ['\n'])).flatten := by
  rw [save_passwd_to_file, List.append_assoc, intercalate_append_newline buffer h]

theorem generate_loop_content (impls : HashImpls) (hash : String)
    (fm : List Char) (mi : List Nat) (dict : List Nat) :
    ∀ n di buffer file c content c2,
      generate_wordlist_part_loop impls hash fm mi dict n di buffer file c =
        .ok (content, c2) →
      ∃ recs : List (List Char), recs.length = n ∧
        content = file ++
          List.flatten ((buffer ++ recs).map (fun r => r ++ ['\n'])) := by
  intro n
  induction n with
  | zero =>
    intro di buffer file c content c2 h
    simp only [generate_wordlist_part_loop, Except.ok.injEq, Prod.mk.injEq] at h
    refine ⟨[], rfl, ?_⟩
    by_cases hb : buffer = []
    · subst hb
      simp only [if_pos rfl] at h
      simp [← h.1]
    · rw [if_neg hb] at h
      rw [← h.1, save_flush_flatten file buffer hb]
      simp
  | succ n ih =>
    intro di buffer file c content c2 h
    rw [generate_wordlist_part_loop] at h
    cases hp : process_line impls hash (build_line fm mi dict di) with
    | error e => rw [hp] at h; cases h
    | ok s =>
      rw [hp] at h
      simp only at h
      by_cases hbuf : (buffer ++ [s]).length = BUFFER_SIZE
      · rw [if_pos hbuf] at h
        obtain ⟨recs, hlen, hcontent⟩ := ih _ _ _ _ _ _ h
        refine ⟨s :: recs, by simp [hlen], ?_⟩
        rw [hcontent, save_flush_flatten file (buffer ++ [s]) (by simp)]
        simp [List.append_assoc]
      · rw [if_neg hbuf] at h
        obtain ⟨recs, hlen, hcontent⟩ := ih _ _ _ _ _ _ h
        refine ⟨s :: recs, by simp [hlen], ?_⟩
        rw [hcontent]
        simp [List.append_assoc]

/-- C4: the flush primitive writes exactly the buffered records joined with
a newline followed by one final newline, and consequently a successful
worker run that emits at least one record produces a file content that is
the concatenation of the newline-terminated records — in particular it ends
with a newline. -/
theorem flush_newline_termination (impls : HashImpls) (hash : String)
    (fm : List Char) (mi : List Nat) (dict : List Nat) (n : Nat)
    (di : List Nat) (c : Nat) (hn : 1 ≤ n) :
    (∀ file buffer,
       save_passwd_to_file file (List.intercalate ['\n'] buffer) =
         file ++ (List.intercalate ['\n'] buffer ++ ['\n'])) ∧
    ∀ content c2,
      generate_wordlist_part impls n di fm mi dict hash [] c =
        .ok (content, c2) →
      ∃ recs t, (recs : List (List Char)).length = n ∧
        content = List.flatten (recs.map (fun r => r ++ ['\n'])) ∧
        content = t ++ ['\n'] := by
  constructor
  · intro file buffer
    simp [save_passwd_to_file]
  · intro content c2 h
    obtain ⟨recs, hlen, hcontent⟩ :=
      generate_loop_content impls hash fm mi dict n di [] [] c content c2 h
    have hne : recs ≠ [] := by
      intro hr
      rw [hr] at hlen
      simp at hlen
      omega
    obtain ⟨rs, r, hrecs⟩ : ∃ rs r, recs = rs ++ [r] :=
      ⟨recs.dropLast, recs.getLast hne, (List.dropLast_append_getLast hne).symm⟩
    refine ⟨recs, List.flatten (rs.map (fun r => r ++ ['\n'])) ++ r, hlen, ?_, ?_⟩
    · simpa using hcontent
    · rw [hcontent, hrecs]
      simp [List.append_assoc]

/-- Witness for `flush_newline_termination`: a two-record run over the
alphabet `{a, b}` with a single slot. -/
theorem flush_newline_termination_witness :
    1 ≤ 2 ∧
    ∀ content c2,
      generate_wordlist_part zero_hash_impls 2 [0] [Char.ofNat 0] [0] [97, 98]
          "" [] 0 = .ok (content, c2) →
      ∃ recs t, (recs : List (List Char)).length = 2 ∧
        content = List.flatten (recs.map (fun r => r ++ ['\n'])) ∧
        content = t ++ ['\n'] :=
  ⟨by decide,
   (flush_newline_termination zero_hash_impls "" [Char.ofNat 0] [0] [97, 98]
     2 [0] 0 (by decide)).2⟩

theorem generate_loop_counter (impls : HashImpls) (hash : String)
    (fm : List Char) (mi : List Nat) (dict : List Nat) :
    ∀ n di buffer file c, c < U64_SIZE → ∀ content c2,
      generate_wordlist_part_loop impls hash fm mi dict n di buffer file c =
        .ok (content, c2) →
      c2 = (c + n) % U64_SIZE := by
  intro n
  induction n with
  | zero =>
    intro di buffer file c hc content c2 h
    simp only [generate_wordlist_part_loop, Except.ok.injEq, Prod.mk.injEq] at h
    rw [← h.2, Nat.add_zero, Nat.mod_eq_of_lt hc]
  | succ n ih =>
    intro di buffer file c hc content c2 h
    rw [generate_wordlist_part_loop] at h
    cases hp : process_line impls hash (build_line fm mi dict di) with
    | error e => rw [hp] at h; cases h
    | ok s =>
      rw [hp] at h
      simp only at h
      have hm : (c + 1) % U64_SIZE < U64_SIZE :=
        Nat.mod_lt _ (by simp [U64_SIZE])
      have harith : ∀ x : Nat, ((c + 1) % U64_SIZE + n) % U64_SIZE =
          (c + (n + 1)) % U64_SIZE := by
        intro _
        rw [Nat.mod_add_mod]
        congr 1
        omega
      by_cases hbuf : (buffer ++ [s]).length = BUFFER_SIZE
      · rw [if_pos hbuf] at h
        have := ih _ _ _ _ hm _ _ h
        rw [this, harith 0]
      · rw [if_neg hbuf] at h
        have := ih _ _ _ _ hm _ _ h
        rw [this, harith 0]

theorem workers_fold_counter (impls : HashImpls) (fm : List Char)
    (mi : List Nat) (dict : List Nat) (hash : String) :
    ∀ parts file c, c < U64_SIZE → ∀ out,
      wordlist_workers_fold impls fm mi dict hash parts file c = .ok out →
      out.2 = (c + (parts.map Prod.snd).sum) % U64_SIZE := by
  intro parts
  induction parts with
  | nil =>
    intro file c hc out h
    simp only [wordlist_workers_fold, Except.ok.injEq] at h
    subst h
    simp [Nat.mod_eq_of_lt hc]
  | cons part rest ih =>
    intro file c hc out h
    rw [wordlist_workers_fold] at h
    cases hw : generate_wordlist_part impls part.2 part.1 fm mi dict hash
        file c with
    | error e => rw [hw] at h; cases h
    | ok fc =>
      rw [hw] at h
      simp only at h
      have hc2 : fc.2 = (c + part.2) % U64_SIZE :=
        generate_loop_counter impls hash fm mi dict part.2 part.1 [] file c hc
          fc.1 fc.2 hw
      have hm : fc.2 < U64_SIZE := by
        rw [hc2]; exact Nat.mod_lt _ (by simp [U64_SIZE])
      have hout := ih fc.1 fc.2 hm out h
      rw [hout, hc2, Nat.mod_add_mod, List.map_cons, List.sum_cons,
        ← Nat.add_assoc]

theorem sum_thread_counts (total N : Nat) :
    ∀ n, ((List.range n).map (fun i => thread_count total N i)).sum =
      thread_offset total N n := by
  intro n
  induction n with
  | zero => rfl
  | succ n ih =>
    rw [List.range_succ, List.map_append, List.sum_append, ih]
    simp [thread_offset]

theorem partition_counts_sum (d k total N : Nat) (hN : 1 ≤ N) :
    ((run_wordlist_partition d k total N).map Prod.snd).sum = total := by
  have h0 : (List.replicate k 0 : List Nat) =
      (advance_indexes d)^[thread_offset total N 0] (List.replicate k 0) := rfl
  have hmap := build_parts_map d total N (List.replicate k 0) N 0
  rw [run_wordlist_partition]
  rw [show build_parts d total N N 0 (List.replicate k 0) =
      (List.range' 0 N).map
        (fun j => ((advance_indexes d)^[thread_offset total N j]
           (List.replicate k 0), thread_count total N j)) from hmap]
  rw [← List.range_eq_range', List.map_map]
  have : (Prod.snd ∘ fun j =>
      ((advance_indexes d)^[thread_offset total N j] (List.replicate k 0),
       thread_count total N j)) = fun i => thread_count total N i := rfl
  rw [this, sum_thread_counts total N N, thread_offset_total total N hN]

/-- C5, counterexample: the global counter is a process-wide static that is
never reset by the scheduler.  After a first run that emits one record from
the initial (process start) value `0`, the counter holds `1`; a second run
in the same process therefore starts from `1`, not from `0` as the claim
requires. -/
theorem global_counter_not_reset_cex :
    wordlist_generation_scheduler zero_hash_impls [Char.ofNat 0] [0] [97] ""
        1 1 0 = .ok (['a', '\n'], 1) ∧ (1 : Nat) ≠ 0 := by
  constructor
  · rfl
  · decide

/-- C5 (amended): the global counter is a single 64-bit value incremented by
exactly one per emitted record across all workers (so a successful run of
`total` records raises it by exactly `total`, and it is monotonically
non-decreasing); it is initialised to zero once at process start and is NOT
reset at the start of each run — a later run continues from the previous
total. -/
theorem global_counter_per_record (impls : HashImpls) (fm : List Char)
    (mi : List Nat) (dict : List Nat) (hash : String) (total N c : Nat)
    (hN : 1 ≤ N) (hc : c + total < U64_SIZE) :
    (∀ file c2,
       run_wordlist_generation impls fm mi dict hash total N c =
         .ok (file, c2) →
       c2 = c + total ∧ c ≤ c2) ∧
    (∀ n di buffer file k, k < U64_SIZE → ∀ content c2,
       generate_wordlist_part_loop impls hash fm mi dict n di buffer file k =
         .ok (content, c2) →
       c2 = (k + n) % U64_SIZE) := by
  constructor
  · intro file c2 h
    have hcM : c < U64_SIZE := by omega
    have := workers_fold_counter impls fm mi dict hash
      (run_wordlist_partition dict.length mi.length total N) [] c hcM
      (file, c2) h
    rw [partition_counts_sum dict.length mi.length total N hN] at this
    simp only at this
    rw [Nat.mod_eq_of_lt hc] at this
    exact ⟨this, by omega⟩
  · exact fun n di buffer file k hk =>
      generate_loop_counter impls hash fm mi dict n di buffer file k hk

/-- Witness for `global_counter_per_record`: one worker, one slot over a
single-byte alphabet, starting from counter value 0. -/
theorem global_counter_per_record_witness :
    1 ≤ 1 ∧ 0 + 1 < U64_SIZE ∧
    ∀ file c2,
      run_wordlist_generation zero_hash_impls [Char.ofNat 0] [0] [97] ""
          1 1 0 = .ok (file, c2) →
      c2 = 0 + 1 ∧ 0 ≤ c2 :=
  ⟨by decide, by decide,
   (global_counter_per_record zero_hash_impls [Char.ofNat 0] [0] [97] ""
     1 1 0 (by decide) (by decide)).1⟩

/-- C6, counterexample: with the full lowercase class (26 bytes) the fifth
record of the enumeration from `[0,0,0,0]` is `aaae`, not `aaba`: the ten
lines the claim lists are those of a four-byte alphabet `{a,b,c,d}`, not of
the lowercase class. -/
theorem s2_lowercase_first_ten_cex :
    generate_wordlist_part zero_hash_impls 10 [0, 0, 0, 0]
        (build_wordlist_config
          ⟨false, false, false, true, "????", ""⟩).formated_mask
        (build_wordlist_config
          ⟨false, false, false, true, "????", ""⟩).mask_indexes
        (build_wordlist_config
          ⟨false, false, false, true, "????", ""⟩).dict "" [] 0 =
      .ok ("aaaa\naaab\naaac\naaad\naaae\naaaf\naaag\naaah\naaai\naaaj\n".toList,
           10) ∧
    "aaaa\naaab\naaac\naaad\naaae\naaaf\naaag\naaah\naaai\naaaj\n".toList ≠
      "aaaa\naaab\naaac\naaad\naaba\naabb\naabc\naabd\naaca\naacb\n".toList := by
  constructor
  · rfl
  · decide

/-- C6 (amended): a single worker with the lowercase class, mask `????`, no
hash, start index vector `[0,0,0,0]` and count 10 emits exactly the ten
lines `aaaa, aaab, aaac, aaad, aaae, aaaf, aaag, aaah, aaai, aaaj` in that
order, each terminated by a newline, and raises the counter from 0 to 10. -/
theorem s2_lowercase_first_ten :
    generate_wordlist_part zero_hash_impls 10 [0, 0, 0, 0]
        (build_wordlist_config
          ⟨false, false, false, true, "????", ""⟩).formated_mask
        (build_wordlist_config
          ⟨false, false, false, true, "????", ""⟩).mask_indexes
        (build_wordlist_config
          ⟨false, false, false, true, "????", ""⟩).dict "" [] 0 =
      .ok ("aaaa\naaab\naaac\naaad\naaae\naaaf\naaag\naaah\naaai\naaaj\n".toList,
           10) := by
  rfl

theorem hex_encode_length (bs : List Nat) :
    (hex_encode bs).length = 2 * bs.length := by
  induction bs with
  | nil => rfl
  | cons b bs ih =>
    simp only [hex_encode, List.flatMap_cons, List.length_append] at ih ⊢
    simp only [List.length_cons, List.length_nil, List.length_cons]
    omega

theorem hex_digit_lower (n : Nat) (h : n < 16) :
    is_lower_hex_char (hex_digit n) = true := by
  interval_cases n <;> decide

theorem hex_encode_lower (bs : List Nat) (hb : ∀ b ∈ bs, b < 256) :
    ∀ c ∈ hex_encode bs, is_lower_hex_char c = true := by
  induction bs with
  | nil => intro c hc; simp [hex_encode] at hc
  | cons b bs ih =>
    intro c hc
    have hb0 : b < 256 := hb b (by simp)
    rw [hex_encode, List.flatMap_cons] at hc
    simp only [List.cons_append, List.nil_append, List.mem_cons] at hc
    rcases hc with rfl | rfl | hc
    · exact hex_digit_lower _ (by omega)
    · exact hex_digit_lower _ (by omega)
    · exact ih (fun x hx => hb x (by simp [hx])) c hc

theorem hash_with_digest_props {n : Nat} (d : DigestImpl n) (password : String) :
    (hash_with_digest d password).length = 2 * n ∧
    ∀ c ∈ (hash_with_digest d password).toList, is_lower_hex_char c = true := by
  constructor
  · show (hex_encode (d.run password)).length = 2 * n
    rw [hex_encode_length, d.run_length]
  · intro c hc
    exact hex_encode_lower (d.run password) (d.run_bytes password) c hc

/-- C3: `manage_hash` succeeds exactly on the thirteen supported names
(case-sensitive), returning a lowercase hexadecimal digest of the
algorithm's standard output size — no prefix, no separator — and returns
`UnsupportedHashAlgorithm` carrying the given name on every other name.
Being a plain function of its inputs, its result for a fixed password and
name is always the same. -/
theorem manage_hash_spec (impls : HashImpls) :
    (∀ password name, name ∈ supported_hash_names →
       manage_hash impls password name =
         .ok (hash_digest_of impls name password) ∧
       (hash_digest_of impls name password).length =
         2 * standard_digest_bytes name ∧
       ∀ c ∈ (hash_digest_of impls name password).toList,
         is_lower_hex_char c = true) ∧
    (∀ password name, name ∉ supported_hash_names →
       manage_hash impls password name =
         .error (.unsupportedHashAlgorithm name)) := by
  constructor
  · intro password name hname
    fin_cases hname <;>
      exact ⟨rfl, (hash_with_digest_props _ password).1,
        (hash_with_digest_props _ password).2⟩
  · intro password name h
    simp only [supported_hash_names, List.mem_cons, List.not_mem_nil,
      or_false, not_or] at h
    obtain ⟨h1, h2, h3, h4, h5, h6, h7, h8, h9, h10, h11, h12, h13⟩ := h
    simp [manage_hash, h1, h2, h3, h4, h5, h6, h7, h8, h9, h10, h11, h12, h13]

/-- Witness for `manage_hash_spec`: the supported name `md5` and the
unsupported name `sha999` (the one the repository's own test uses). -/
theorem manage_hash_spec_witness :
    ("md5" ∈ supported_hash_names ∧
     manage_hash zero_hash_impls "password" "md5" =
       .ok (hash_digest_of zero_hash_impls "md5" "password") ∧
     (hash_digest_of zero_hash_impls "md5" "password").length =
       2 * standard_digest_bytes "md5" ∧
     ∀ c ∈ (hash_digest_of zero_hash_impls "md5" "password").toList,
       is_lower_hex_char c = true) ∧
    ("sha999" ∉ supported_hash_names ∧
     manage_hash zero_hash_impls "password" "sha999" =
       .error (.unsupportedHashAlgorithm "sha999")) :=
  ⟨⟨by decide,
    (manage_hash_spec zero_hash_impls).1 "password" "md5" (by decide)⟩,
   ⟨by decide,
    (manage_hash_spec zero_hash_impls).2 "password" "sha999" (by decide)⟩⟩

theorem run_stress_test_eq (stop : Nat → Bool) :
    ∀ k fuel i c nb, (∀ j, j < k → stop (i + j) = true) →
      stop (i + k) = false → k < fuel →
      run_stress_test stop fuel i c nb = some ((c + nb + k) % U64_SIZE) := by
  intro k
  induction k with
  | zero =>
    intro fuel i c nb _htrue hfalse hfuel
    obtain ⟨f, rfl⟩ : ∃ f, fuel = f + 1 := ⟨fuel - 1, by omega⟩
    rw [run_stress_test, show stop i = false from by simpa using hfalse]
    simp
  | succ k ih =>
    intro fuel i c nb htrue hfalse hfuel
    obtain ⟨f, rfl⟩ : ∃ f, fuel = f + 1 := ⟨fuel - 1, by omega⟩
    have h0 : stop i = true := by simpa using htrue 0 (by omega)
    rw [run_stress_test, h0]
    simp only [Bool.true_eq_false, if_false]
    have htrue2 : ∀ j, j < k → stop (i + 1 + j) = true := by
      intro j hj
      rw [show i + 1 + j = i + (j + 1) from by omega]
      exact htrue (j + 1) (by omega)
    have hfalse2 : stop (i + 1 + k) = false := by
      rw [show i + 1 + k = i + (k + 1) from by omega]
      exact hfalse
    rw [ih f (i + 1) c (nb + 1) htrue2 hfalse2 (by omega)]
    rw [show c + (nb + 1) + k = c + nb + (k + 1) from by omega]

theorem benchmark_fold_sum (fuel : Nat) (stops : List (Nat → Bool))
    (ks : List Nat)
    (hall : List.Forall₂ (fun (stop : Nat → Bool) (k : Nat) =>
       (∀ i, i < k → stop i = true) ∧ stop k = false ∧ k < fuel) stops ks) :
    ∀ c, c < U64_SIZE →
      benchmark_workers_fold fuel stops c = some ((c + ks.sum) % U64_SIZE) := by
  induction hall with
  | nil =>
    intro c hc
    simp [benchmark_workers_fold, Nat.mod_eq_of_lt hc]
  | @cons stop k stops2 ks2 hpair _hrest ih =>
    intro c hc
    obtain ⟨htrue, hfalse, hfuel⟩ := hpair
    rw [benchmark_workers_fold]
    rw [run_stress_test_eq stop k fuel 0 c 0
      (fun j hj => by simpa using htrue j hj) (by simpa using hfalse) hfuel]
    simp only
    rw [ih ((c + 0 + k) % U64_SIZE) (Nat.mod_lt _ (by simp [U64_SIZE]))]
    rw [Nat.mod_add_mod, List.sum_cons,
      show c + 0 + k + ks2.sum = c + (k + ks2.sum) from by omega]

/-- C9: each benchmark worker checks the shared stop flag once per loop
iteration; while it is set the worker generates one random password and
increments only its local count, and when it is cleared it adds its local
count to the shared benchmark counter exactly once and returns; the value
returned by the benchmark equals the sum of all workers' local counts. -/
theorem benchmark_counter_sum (fuel : Nat) (stops : List (Nat → Bool))
    (ks : List Nat)
    (hall : List.Forall₂ (fun (stop : Nat → Bool) (k : Nat) =>
       (∀ i, i < k → stop i = true) ∧ stop k = false ∧ k < fuel) stops ks)
    (hsum : ks.sum < U64_SIZE) :
    load_cpu_benchmark stops fuel = some ks.sum ∧
    (∀ stop k c, (∀ i, i < k → stop i = true) → stop k = false → k < fuel →
       run_stress_test stop fuel 0 c 0 = some ((c + k) % U64_SIZE)) := by
  constructor
  · rw [load_cpu_benchmark,
      benchmark_fold_sum fuel stops ks hall 0 (by simp [U64_SIZE])]
    rw [Nat.zero_add, Nat.mod_eq_of_lt hsum]
  · intro stop k c htrue hfalse hfuel
    have := run_stress_test_eq stop k fuel 0 c 0
      (fun j hj => by simpa using htrue j hj) (by simpa using hfalse) hfuel
    simpa using this

/-- Witness for `benchmark_counter_sum`: two workers whose flags clear after
2 and 3 iterations; the benchmark returns 5. -/
theorem benchmark_counter_sum_witness :
    List.Forall₂ (fun (stop : Nat → Bool) (k : Nat) =>
        (∀ i, i < k → stop i = true) ∧ stop k = false ∧ k < 5)
      [fun i => decide (i < 2), fun i => decide (i < 3)] [2, 3] ∧
    ([2, 3] : List Nat).sum < U64_SIZE ∧
    load_cpu_benchmark [fun i => decide (i < 2), fun i => decide (i < 3)] 5 =
      some ([2, 3] : List Nat).sum := by
  have hall : List.Forall₂ (fun (stop : Nat → Bool) (k : Nat) =>
      (∀ i, i < k → stop i = true) ∧ stop k = false ∧ k < 5)
    [fun i => decide (i < 2), fun i => decide (i < 3)] [2, 3] := by
    refine List.Forall₂.cons ⟨?_, by decide, by decide⟩
      (List.Forall₂.cons ⟨?_, by decide, by decide⟩ List.Forall₂.nil)
    · intro i hi; exact decide_eq_true hi
    · intro i hi; exact decide_eq_true hi
  exact ⟨hall, by decide, (benchmark_counter_sum 5 _ _ hall (by decide)).1⟩

end WorgenX
